import Mathlib

/-!
Verification development for `usb_mirroring.py` (unraid_usb_mirror).

The Python source is shallowly embedded below.  Filesystem state is
modelled explicitly: a state holds the regular files (with their stat
metadata) and the directories of a tree, each keyed by its path relative
to the corresponding root, represented as the list of path components.
Absolute path strings (used by the substring-based exclusion test, which
the source applies to full path strings) are recovered by joining the
components onto the configured root with `/`.

Modelling conventions, matching the source:
  * times (`time.time()`, `st_mtime`) and sizes are integers;
  * `subprocess` notification dispatch is a boolean outcome (`ok`);
  * per-operation `try/except` blocks become explicit branches that
    return the untouched state together with an `alert` flag recording
    whether the handler called `notify_host`;
  * directory stat metadata for directories created by `os.makedirs` is
    a fixed dummy value: no code path ever stats such a directory
    (`initial_sync` only stats paths that collide with primary files,
    and `makedirs` only creates proper ancestors of synced files).
-/

namespace UsbMirror

/-! ### Configuration constants (lines 15-23 of the source) -/

def BOOT_USB : String := "/boot"

def BACKUP_DEST : String := "/mnt/remotes/local_backups/usb_backup"

def EXCLUDED_PATHS : List String := ["System Volume Information"]

def notification_cooldown : Int := 300

/-! ### Path strings.  `joinPath root rel` is `os.path.join` of the root
with each component of `rel` in turn. -/

def joinPath (root : String) (rel : List String) : String :=
  rel.foldl (fun a c => a ++ "/" ++ c) root

/-- `should_exclude` (source lines 112-116): true iff some excluded
pattern occurs as a substring of the path string (Python `excluded in path`). -/
def should_exclude (path : String) : Bool :=
  EXCLUDED_PATHS.any (fun pat => decide (pat.data <:+: path.data))

/-- `get_backup_path` (source lines 118-120) maps a primary path to the
backup-side path string; on component lists the relative part is the
identity, so only the root changes. -/
def get_backup_path (rel : List String) : String :=
  joinPath BACKUP_DEST rel

/-! ### Notifier (`notify_host`, source lines 45-69).

One call is a pure step on the cooldown timestamp `last`:
`now` is `time.time()` at the call, `dry` is `dry_run_mode`, and `ok`
tells whether the `subprocess.run` dispatch would succeed (a failed
dispatch raises `CalledProcessError` / `FileNotFoundError`, which the
source catches without updating `last_error_notification`).
The result is the new timestamp together with whether a notification
was actually dispatched. -/
def notifyStep (dry ok : Bool) (last now : Int) : Int × Bool :=
  if now - last < notification_cooldown then (last, false)
  else if dry then (last, false)
  else if ok then (now, true)
  else (last, false)

/-- Dispatched-flags of a sequence of `notify_host` calls, each event a
`(time, dispatch-would-succeed)` pair, threading the cooldown timestamp. -/
def runNotify (dry : Bool) (last : Int) : List (Int × Bool) → List Bool
  | [] => []
  | (t, ok) :: es =>
    (notifyStep dry ok last t).2 :: runNotify dry (notifyStep dry ok last t).1 es

/-- The times at which a sequence of `notify_host` calls actually
dispatches a notification. -/
def dispatchTimes (dry : Bool) (last : Int) : List (Int × Bool) → List Int
  | [] => []
  | (t, ok) :: es =>
    if (notifyStep dry ok last t).2 then t :: dispatchTimes dry (notifyStep dry ok last t).1 es
    else dispatchTimes dry (notifyStep dry ok last t).1 es

/-! ### Mount checking (`is_mounted`, source lines 72-89).

The input is the raw output of `df -T` as a list of lines.  The source
skips the header line, splits each line on whitespace, reads field 1 as
the filesystem type, and returns `True` as soon as one line's type is
outside the pseudo set; a malformed line (fewer than two fields) raises
`IndexError`, which the `except` clause turns into `False` for the
whole call.  Note that the `path` argument is normalised and then never
used. -/

def pseudoTypes : List String := ["rootfs", "tmpfs", "devtmpfs", "efivars", "overlay"]

/-- Helper for `splitWS`: scan the characters, accumulating the current
field in reverse. -/
def splitWSAux : List Char → List Char → List String
  | [], cur => if cur.isEmpty then [] else [String.mk cur.reverse]
  | c :: cs, cur =>
    if c = ' ' then
      if cur.isEmpty then splitWSAux cs []
      else String.mk cur.reverse :: splitWSAux cs []
    else splitWSAux cs (c :: cur)

/-- Python `str.split()`: split on runs of spaces, dropping empty fields. -/
def splitWS (s : String) : List String :=
  splitWSAux s.data []

/-- Field 1 of a `df -T` line (the filesystem type), if the line has at
least two whitespace-separated fields. -/
def fstypeOf (line : String) : Option String :=
  match splitWS line with
  | _ :: t :: _ => some t
  | _ => none

/-- The scan of the data lines of `df -T` performed by `is_mounted`. -/
def scanLines : List String → Bool
  | [] => false
  | l :: ls =>
    match fstypeOf l with
    | none => false
    | some t => if pseudoTypes.contains t then scanLines ls else true

def is_mounted (dfLines : List String) (_path : String) : Bool :=
  scanLines (dfLines.drop 1)

/-- `check_paths` (source lines 91-110): its boolean result, given the
`df -T` output and whether `BACKUP_DEST` exists on disk. -/
def check_paths (dfLines : List String) (backupExists : Bool) : Bool :=
  if !is_mounted dfLines BOOT_USB then false
  else if !backupExists then false
  else if !is_mounted dfLines BACKUP_DEST then false
  else true

/-! ### Filesystem state

A tree (primary or backup) is a set of regular files and a set of
directories, each keyed by its relative path (component list); both
carry stat metadata (`st_mtime`, `st_size`).  The backup root and
primary root themselves are not entries (relative path `[]` is the
root, which the source never creates or removes). -/

structure FileMeta where
  mtime : Int
  size : Int
deriving DecidableEq

structure FS where
  files : List (List String × FileMeta)
  dirs : List (List String × FileMeta)
deriving DecidableEq

def lookupFile (fs : FS) (p : List String) : Option FileMeta :=
  (fs.files.find? (fun f => f.1 = p)).map (fun f => f.2)

def lookupDir (fs : FS) (p : List String) : Option FileMeta :=
  (fs.dirs.find? (fun d => d.1 = p)).map (fun d => d.2)

def fileExists (fs : FS) (p : List String) : Bool :=
  (lookupFile fs p).isSome

def dirExists (fs : FS) (p : List String) : Bool :=
  (lookupDir fs p).isSome

/-- `os.path.exists` on a tree. -/
def pathExists (fs : FS) (p : List String) : Bool :=
  fileExists fs p || dirExists fs p

/-- `os.stat`: the metadata of whatever entry sits at `p`. -/
def statMeta (fs : FS) (p : List String) : Option FileMeta :=
  match lookupFile fs p with
  | some m => some m
  | none => lookupDir fs p

/-- Effect of writing file contents and stats to `p` (`shutil.copy2`
overwrites the destination and preserves mtime and size). -/
def insertFile (fs : FS) (p : List String) (m : FileMeta) : FS :=
  { fs with files := (p, m) :: fs.files.filter (fun f => !(f.1 = p : Bool)) }

/-- `os.remove`. -/
def eraseFile (fs : FS) (p : List String) : FS :=
  { fs with files := fs.files.filter (fun f => !(f.1 = p : Bool)) }

/-- `os.rmdir`. -/
def rmdirFS (fs : FS) (p : List String) : FS :=
  { fs with dirs := fs.dirs.filter (fun d => !(d.1 = p : Bool)) }

/-- All prefixes of a component list, shortest first (`[]` included). -/
def prefixesOf (p : List String) : List (List String) :=
  (List.range (p.length + 1)).map (fun n => p.take n)

/-- `os.makedirs(..., exist_ok=True)` fails (`FileExistsError`) iff some
nonempty prefix of the target exists as a regular file. -/
def ancestorBlocked (fs : FS) (p : List String) : Bool :=
  (prefixesOf p).any (fun q => !q.isEmpty && fileExists fs q)

/-- `os.makedirs(..., exist_ok=True)` in the unblocked case: create every
missing ancestor directory (with dummy stat metadata, see header note). -/
def mkdirs (fs : FS) (p : List String) : FS :=
  { fs with
    dirs := ((prefixesOf p).filter (fun q => !q.isEmpty && !dirExists fs q)).map
        (fun q => (q, ⟨0, 0⟩)) ++ fs.dirs }

/-- `c` is a direct child path of `p` (one component longer). -/
def isChild (c p : List String) : Bool :=
  !c.isEmpty && (c.dropLast = p : Bool)

/-- `os.listdir p == []`: no file and no directory is a direct child of `p`. -/
def listdirEmpty (fs : FS) (p : List String) : Bool :=
  !(fs.files.any (fun f => isChild f.1 p)) && !(fs.dirs.any (fun d => isChild d.1 p))

/-- The ancestor-pruning `while` loop of `remove_file` (source lines
156-167): starting from `parent`, repeatedly `rmdir` the current
directory while it is empty and step to its parent, stopping at the
backup root (`parent = []`), at the first non-empty directory, or when a
listing fails (the directory does not exist); the `except: break`
abandons the walk silently. -/
def pruneEmptyDirs (fs : FS) (parent : List String) : FS :=
  if h : parent = [] then fs
  else if dirExists fs parent then
    if listdirEmpty fs parent then pruneEmptyDirs (rmdirFS fs parent) parent.dropLast
    else fs
  else fs
termination_by parent.length
decreasing_by
  simp only [List.length_dropLast]
  have : 0 < parent.length := List.length_pos.mpr h
  omega

/-- `remove_file` (source lines 140-170).  Returns the new backup state
and whether the error handler raised an alert (`notify_host`). -/
def remove_file (dry : Bool) (fs : FS) (rel : List String) : FS × Bool :=
  if should_exclude (get_backup_path rel) then (fs, false)
  else if pathExists fs rel then
    if dry then (fs, false)
    else if fileExists fs rel then
      (pruneEmptyDirs (eraseFile fs rel) rel.dropLast, false)
    else (fs, true)
  else (fs, false)

/-- `shutil.rmtree`: remove the directory at `p` and everything below it. -/
def rmtree (fs : FS) (p : List String) : FS :=
  { files := fs.files.filter (fun f => !p.isPrefixOf f.1),
    dirs := fs.dirs.filter (fun d => !p.isPrefixOf d.1) }

/-- `remove_directory` (source lines 172-188). -/
def remove_directory (dry : Bool) (fs : FS) (rel : List String) : FS × Bool :=
  if should_exclude (get_backup_path rel) then (fs, false)
  else if pathExists fs rel then
    if dry then (fs, false)
    else if dirExists fs rel then (rmtree fs rel, false)
    else (fs, true)
  else (fs, false)

/-- `sync_file` (source lines 122-138): copy the primary file at `rel`
to the backup tree.  `os.makedirs` runs on the parent first, so a
blocking file among the ancestors aborts before any write; `shutil.copy2`
onto an existing directory copies into it under the source's basename,
and every failure is caught and alerted.  Returns the new backup state
and the alert flag. -/
def sync_file (dry : Bool) (prim back : FS) (rel : List String) : FS × Bool :=
  if should_exclude (joinPath BOOT_USB rel) then (back, false)
  else if dry then (back, false)
  else if ancestorBlocked back rel.dropLast then (back, true)
  else if fileExists prim rel = false then (mkdirs back rel.dropLast, true)
  else if dirExists (mkdirs back rel.dropLast) rel then
    if dirExists (mkdirs back rel.dropLast) (rel ++ [rel.getLastD ""]) then
      (mkdirs back rel.dropLast, true)
    else
      (insertFile (mkdirs back rel.dropLast) (rel ++ [rel.getLastD ""])
        ((lookupFile prim rel).getD ⟨0, 0⟩), false)
  else (insertFile (mkdirs back rel.dropLast) rel ((lookupFile prim rel).getD ⟨0, 0⟩), false)

/-- The size-and-mtime comparison of `initial_sync` (source lines
207-220): sync when the backup path does not exist, or when either stat
field differs (a stat failure is also treated as needs-sync; stat
itself cannot fail in this model). -/
def needs_sync (m : FileMeta) (back : FS) (p : List String) : Bool :=
  match statMeta back p with
  | none => true
  | some bm => (m.mtime != bm.mtime) || (m.size != bm.size)

/-- The forward pass of `initial_sync` (source lines 195-224): walk the
primary files, skip excluded paths (directory pruning plus the per-file
check collapse to the substring test on the full path, since no excluded
pattern contains a separator), sync what differs, and count each needed
sync. -/
def forwardPass (dry : Bool) (prim : FS) : List (List String × FileMeta) → FS → FS × Nat
  | [], back => (back, 0)
  | (p, m) :: rest, back =>
    if should_exclude (joinPath BOOT_USB p) then forwardPass dry prim rest back
    else if needs_sync m back p then
      ((forwardPass dry prim rest (sync_file dry prim back p).1).1,
       (forwardPass dry prim rest (sync_file dry prim back p).1).2 + 1)
    else forwardPass dry prim rest back

/-- The orphan-cleanup pass of `initial_sync` (source lines 227-240):
remove every backup file whose primary path does not exist (note: no
exclusion check), counting each removal. -/
def orphanPass (prim back : FS) : FS × Nat :=
  ({ back with files := back.files.filter (fun f => pathExists prim f.1) },
   (back.files.filter (fun f => !pathExists prim f.1)).length)

/-- `initial_sync` (source lines 190-242): the forward pass, then - only
when not in dry-run mode - the orphan-cleanup pass; the result is the
final backup state and the total change count. -/
def initial_sync (prim back : FS) (dry : Bool) : FS × Nat :=
  if dry then forwardPass dry prim prim.files back
  else
    ((orphanPass prim (forwardPass dry prim prim.files back).1).1,
     (forwardPass dry prim prim.files back).2 +
       (orphanPass prim (forwardPass dry prim prim.files back).1).2)

/-! ### Event dispatch (`start_monitoring`, source lines 269-303).

An event carries the inotify kind names, the primary-relative path of
`os.path.join(path, filename)`, and the outcomes of the two filesystem
queries the dispatcher makes on the primary side at dispatch time
(`os.path.isfile`, `os.path.exists`). -/

structure Event where
  kinds : List String
  rel : List String
  isfile : Bool
  stillExists : Bool
deriving DecidableEq

inductive Action where
  | sync
  | removeFile
  | removeDir
  | mkdirAct
  | skip
deriving DecidableEq

/-- The `if/elif` dispatch chain of the event loop, after the exclusion
short-circuit. -/
def dispatch (e : Event) : Action :=
  if should_exclude (joinPath BOOT_USB e.rel) then .skip
  else if e.kinds.contains "IN_CLOSE_WRITE" || e.kinds.contains "IN_MOVED_TO" then
    if e.isfile then .sync else .skip
  else if e.kinds.contains "IN_DELETE" || e.kinds.contains "IN_MOVED_FROM" then .removeFile
  else if e.kinds.contains "IN_DELETE_SELF" || e.kinds.contains "IN_MOVED_FROM" then
    if !e.stillExists then .removeDir else .skip
  else if e.kinds.contains "IN_CREATE" && e.kinds.contains "IN_ISDIR" then .mkdirAct
  else .skip

/-- Applying one event to the backup tree (the directory-creation arm is
inlined in the loop, source lines 294-303; its `try/except` logs errors
without alerting). -/
def applyEvent (dry : Bool) (prim back : FS) (e : Event) : FS × Bool :=
  match dispatch e with
  | .sync => sync_file dry prim back e.rel
  | .removeFile => remove_file dry back e.rel
  | .removeDir => remove_directory dry back e.rel
  | .mkdirAct =>
    if dry then (back, false)
    else if ancestorBlocked back e.rel then (back, false)
    else (mkdirs back e.rel, false)
  | .skip => (back, false)

/-! ## Lemmas about the notifier -/

theorem notifyStep_false_eq (dry ok : Bool) (last now : Int)
    (h : (notifyStep dry ok last now).2 = false) :
    notifyStep dry ok last now = (last, false) := by
  unfold notifyStep at *
  split_ifs at * <;> simp_all

theorem notifyStep_true_eq (dry ok : Bool) (last now : Int)
    (h : (notifyStep dry ok last now).2 = true) :
    notifyStep dry ok last now = (now, true) ∧
      notification_cooldown ≤ now - last ∧ dry = false ∧ ok = true := by
  unfold notifyStep at *
  split_ifs at * <;> simp_all <;> omega

theorem dispatchTimes_ge (dry : Bool) :
    ∀ (es : List (Int × Bool)) (last u : Int), u ∈ dispatchTimes dry last es →
      notification_cooldown ≤ u - last := by
  intro es
  induction es with
  | nil => intro last u hu; simp [dispatchTimes] at hu
  | cons e es ih =>
    intro last u hu
    obtain ⟨t, ok⟩ := e
    by_cases hs : (notifyStep dry ok last t).2 = true
    · have h1 := notifyStep_true_eq dry ok last t hs
      rw [dispatchTimes, if_pos hs, h1.1] at hu
      rcases List.mem_cons.mp hu with h | h
      · subst h; exact h1.2.1
      · have := ih t u h
        have := h1.2.1
        unfold notification_cooldown at *
        omega
    · have hs' : (notifyStep dry ok last t).2 = false := by
        revert hs; cases (notifyStep dry ok last t).2 <;> simp
      rw [dispatchTimes, if_neg (by simp [hs']), notifyStep_false_eq dry ok last t hs'] at hu
      exact ih last u hu

theorem dispatchTimes_pairwise (dry : Bool) :
    ∀ (es : List (Int × Bool)) (last : Int),
      (dispatchTimes dry last es).Pairwise (fun a b => notification_cooldown ≤ b - a) := by
  intro es
  induction es with
  | nil => intro last; simp [dispatchTimes]
  | cons e es ih =>
    intro last
    obtain ⟨t, ok⟩ := e
    by_cases hs : (notifyStep dry ok last t).2 = true
    · have h1 := notifyStep_true_eq dry ok last t hs
      rw [dispatchTimes, if_pos hs, h1.1]
      exact List.Pairwise.cons (fun u hu => dispatchTimes_ge dry es t u hu) (ih t)
    · have hs' : (notifyStep dry ok last t).2 = false := by
        revert hs; cases (notifyStep dry ok last t).2 <;> simp
      rw [dispatchTimes, if_neg (by simp [hs']), notifyStep_false_eq dry ok last t hs']
      exact ih last

/-! ## Lemmas about the mount scan -/

theorem scanLines_iff :
    ∀ ls : List String, (∀ l ∈ ls, (fstypeOf l).isSome) →
      (scanLines ls = true ↔
        ∃ l ∈ ls, ∃ t, fstypeOf l = some t ∧ pseudoTypes.contains t = false) := by
  intro ls
  induction ls with
  | nil => intro _; simp [scanLines]
  | cons l ls ih =>
    intro hwf
    have hl : (fstypeOf l).isSome := hwf l (List.mem_cons_self l ls)
    obtain ⟨t, ht⟩ := Option.isSome_iff_exists.mp hl
    have hrest : ∀ x ∈ ls, (fstypeOf x).isSome := fun x hx => hwf x (List.mem_cons_of_mem l hx)
    by_cases hc : pseudoTypes.contains t = true
    · have h1 : scanLines (l :: ls) = scanLines ls := by
        simp only [scanLines, ht]
        rw [if_pos hc]
      rw [h1, ih hrest]
      constructor
      · rintro ⟨x, hx, u, hu, hp⟩
        exact ⟨x, List.mem_cons_of_mem l hx, u, hu, hp⟩
      · rintro ⟨x, hx, u, hu, hp⟩
        rcases List.mem_cons.mp hx with h | h
        · subst h; rw [ht] at hu; cases hu; simp_all
        · exact ⟨x, h, u, hu, hp⟩
    · have h1 : scanLines (l :: ls) = true := by
        simp only [scanLines, ht]
        rw [if_neg hc]
      simp only [Bool.not_eq_true] at hc
      rw [h1]
      constructor
      · intro _; exact ⟨l, List.mem_cons_self l ls, t, ht, hc⟩
      · intro _; rfl

/-! ## Claim theorems: notifier and mount checker -/

/-- C5: with dry-run off, `notify_host` dispatches at most one
notification per cooldown window: any two dispatched notifications are
at least the cooldown apart; and in the spec's scenario, two
alert-worthy failures inside one window dispatch exactly one
notification while a third failure a full window after the last
successful dispatch dispatches a second one. -/
theorem C5_cooldown_rate_limit (last0 : Int) (es : List (Int × Bool)) (L t1 t2 t3 : Int) :
    (dispatchTimes false last0 es).Pairwise (fun a b => notification_cooldown ≤ b - a) ∧
    (notification_cooldown ≤ t1 - L → t2 - t1 < notification_cooldown →
      notification_cooldown ≤ t3 - t1 →
      runNotify false L [(t1, true), (t2, true), (t3, true)] = [true, false, true]) := by
  refine ⟨dispatchTimes_pairwise false es last0, ?_⟩
  intro h1 h2 h3
  have e1 : ¬(t1 - L < notification_cooldown) := by omega
  have e3 : ¬(t3 - t1 < notification_cooldown) := by omega
  simp [runNotify, notifyStep, e1, e3, h2]

/-- Witness for C5 at a concrete call sequence. -/
theorem C5_cooldown_rate_limit_witness :
    runNotify false 0 [(400, true), (500, true), (800, true)] = [true, false, true] :=
  (C5_cooldown_rate_limit 0 [] 0 400 500 800).2 (by norm_num [notification_cooldown])
    (by norm_num [notification_cooldown]) (by norm_num [notification_cooldown])

/-- C6: `notify_host` updates the cooldown timestamp exactly when a
dispatch succeeds: a suppressed call, a dry-run call, and a call whose
dispatch fails all leave the timestamp unchanged and dispatch nothing,
and the timestamp moves to the current time exactly when the cooldown
has elapsed, dry-run is off, and the dispatch succeeds. -/
theorem C6_timestamp_updated_iff_dispatch (dry ok : Bool) (last now : Int) :
    (now - last < notification_cooldown → notifyStep dry ok last now = (last, false)) ∧
    (dry = true → notifyStep dry ok last now = (last, false)) ∧
    (ok = false → notifyStep dry ok last now = (last, false)) ∧
    (notifyStep dry ok last now = (now, true) ↔
      notification_cooldown ≤ now - last ∧ dry = false ∧ ok = true) := by
  unfold notifyStep
  split_ifs with h1 h2 h3 <;> simp_all <;> omega

/-- Witness for C6: a dry-run call at a fresh timestamp dispatches
nothing and leaves the cooldown timestamp unchanged. -/
theorem C6_timestamp_updated_iff_dispatch_witness :
    notifyStep true true 0 400 = (0, false) :=
  (C6_timestamp_updated_iff_dispatch true true 0 400).2.1 rfl

/-- C1 (code bug): `is_mounted` never inspects its `path` argument.  On
a mount table whose only data line is an unrelated `ext4` mount and in
which no field mentions `/boot`, `is_mounted "/boot"` still returns
true, and `check_paths` passes, contradicting the claim that the result
is true only if the queried path itself is a non-pseudo mount point. -/
theorem C1_is_mounted_ignores_queried_path :
    is_mounted ["Filesystem     Type 1K-blocks  Used Available Use% Mounted on",
      "/dev/sdb1      ext4 100 50 50 50% /mnt/disk1"] "/boot" = true ∧
    check_paths ["Filesystem     Type 1K-blocks  Used Available Use% Mounted on",
      "/dev/sdb1      ext4 100 50 50 50% /mnt/disk1"] true = true ∧
    (∀ l ∈ ["Filesystem     Type 1K-blocks  Used Available Use% Mounted on",
      "/dev/sdb1      ext4 100 50 50 50% /mnt/disk1"],
        (splitWS l).contains "/boot" = false) := by
  refine ⟨by decide, by decide, by decide⟩

/-- C9: `is_mounted` is independent of its path argument, and on a
well-formed mount table (every data line has at least two fields) the
common value is true iff some data line's filesystem type lies outside
the pseudo set. -/
theorem C9_is_mounted_path_independent (df : List String) (p1 p2 : String) :
    is_mounted df p1 = is_mounted df p2 ∧
    ((∀ l ∈ df.drop 1, (fstypeOf l).isSome) →
      (is_mounted df p1 = true ↔
        ∃ l ∈ df.drop 1, ∃ t, fstypeOf l = some t ∧ pseudoTypes.contains t = false)) :=
  ⟨rfl, fun hwf => scanLines_iff (df.drop 1) hwf⟩

/-- Witness for C9 at a concrete well-formed table. -/
theorem C9_is_mounted_path_independent_witness :
    is_mounted ["hdr", "dev ext4 rest"] "/boot" =
      is_mounted ["hdr", "dev ext4 rest"] "/anything" ∧
    (is_mounted ["hdr", "dev ext4 rest"] "/boot" = true ↔
      ∃ l ∈ (["hdr", "dev ext4 rest"] : List String).drop 1,
        ∃ t, fstypeOf l = some t ∧ pseudoTypes.contains t = false) :=
  ⟨(C9_is_mounted_path_independent ["hdr", "dev ext4 rest"] "/boot" "/anything").1,
   (C9_is_mounted_path_independent ["hdr", "dev ext4 rest"] "/boot" "/anything").2
     (by decide)⟩

/-! ## Dry-run and no-op frame properties -/

theorem sync_file_dry (prim back : FS) (rel : List String) :
    sync_file true prim back rel = (back, false) := by
  unfold sync_file
  split_ifs <;> simp_all

theorem remove_file_dry (fs : FS) (rel : List String) :
    remove_file true fs rel = (fs, false) := by
  unfold remove_file
  split_ifs <;> simp_all

theorem remove_directory_dry (fs : FS) (rel : List String) :
    remove_directory true fs rel = (fs, false) := by
  unfold remove_directory
  split_ifs <;> simp_all

theorem forwardPass_dry_state (prim : FS) :
    ∀ (l : List (List String × FileMeta)) (back : FS),
      (forwardPass true prim l back).1 = back := by
  intro l
  induction l with
  | nil => intro back; rfl
  | cons pm rest ih =>
    intro back
    obtain ⟨p, m⟩ := pm
    rw [forwardPass]
    split_ifs
    · exact ih back
    · simp only [sync_file_dry]
      exact ih back
    · exact ih back

/-- C10: calling `remove_file` on a path whose mapped backup path does
not exist is a complete no-op: the backup tree is unchanged, no
ancestor pruning happens, and no alert is raised. -/
theorem C10_remove_file_missing_noop (dry : Bool) (fs : FS) (rel : List String)
    (h : pathExists fs rel = false) :
    remove_file dry fs rel = (fs, false) := by
  unfold remove_file
  split_ifs with h1 h2 <;> simp_all

/-- Witness for C10 on a concrete tree missing the target. -/
theorem C10_remove_file_missing_noop_witness :
    remove_file false ⟨[(["keep"], ⟨1, 1⟩)], []⟩ ["gone"] = (⟨[(["keep"], ⟨1, 1⟩)], []⟩, false) :=
  C10_remove_file_missing_noop false ⟨[(["keep"], ⟨1, 1⟩)], []⟩ ["gone"] (by decide)

/-- C7: in dry-run mode no operation writes to the backup tree:
`sync_file`, `remove_file`, `remove_directory`, every event application
(including directory creation), and `initial_sync` (whose orphan pass is
skipped entirely) all leave the backup state exactly as given. -/
theorem C7_dry_run_no_writes (prim back fs : FS) (rel : List String) (e : Event) :
    sync_file true prim back rel = (back, false) ∧
    remove_file true fs rel = (fs, false) ∧
    remove_directory true fs rel = (fs, false) ∧
    applyEvent true prim fs e = (fs, false) ∧
    (initial_sync prim back true).1 = back := by
  refine ⟨sync_file_dry prim back rel, remove_file_dry fs rel,
    remove_directory_dry fs rel, ?_, ?_⟩
  · unfold applyEvent
    cases dispatch e
    · exact sync_file_dry prim fs e.rel
    · exact remove_file_dry fs e.rel
    · exact remove_directory_dry fs e.rel
    · rfl
    · rfl
  · unfold initial_sync
    rw [if_pos rfl]
    exact forwardPass_dry_state prim prim.files back

/-! ## Event dispatch (C3) -/

/-- C3 counterexample: an event whose kind set contains `IN_MOVED_FROM`
together with `IN_CLOSE_WRITE` on an existing regular file is captured
by the sync rule, so `remove_file` is NOT applied, contrary to the
claim's quantification over every event whose kind set includes
moved-out. -/
theorem C3_counterexample :
    (Event.mk ["IN_CLOSE_WRITE", "IN_MOVED_FROM"] ["f"] true true).kinds.contains
        "IN_MOVED_FROM" = true ∧
    dispatch (Event.mk ["IN_CLOSE_WRITE", "IN_MOVED_FROM"] ["f"] true true) = Action.sync ∧
    dispatch (Event.mk ["IN_CLOSE_WRITE", "IN_MOVED_FROM"] ["f"] true true) ≠
      Action.removeFile := by
  refine ⟨by decide, by decide, by decide⟩

/-- C3 (amended): for every non-excluded event whose kind set includes
`IN_MOVED_FROM` but neither of the kinds matched by the earlier sync
rule (`IN_CLOSE_WRITE`, `IN_MOVED_TO`), the file-delete rule fires and
the subtree-delete rule is never reached; and `remove_directory` runs
only for an event carrying `IN_DELETE_SELF` (without `IN_MOVED_FROM`)
whose primary path no longer exists at dispatch time. -/
theorem C3_rule_order (e : Event) :
    (should_exclude (joinPath BOOT_USB e.rel) = false →
      e.kinds.contains "IN_MOVED_FROM" = true →
      e.kinds.contains "IN_CLOSE_WRITE" = false →
      e.kinds.contains "IN_MOVED_TO" = false →
      dispatch e = Action.removeFile) ∧
    (dispatch e = Action.removeDir →
      e.kinds.contains "IN_DELETE_SELF" = true ∧
      e.kinds.contains "IN_MOVED_FROM" = false ∧
      e.stillExists = false) := by
  constructor
  · intro h1 h2 h3 h4
    unfold dispatch
    rw [if_neg (by simp [h1]), if_neg (by rw [h3, h4]; simp), if_pos (by rw [h2]; simp)]
  · intro h
    unfold dispatch at h
    split_ifs at h with g1 g2 g3 g4 g5 g6 <;> simp_all

/-- Witness for C3 (amended): a plain moved-out event on a non-excluded
path triggers the file-delete action. -/
theorem C3_rule_order_witness :
    dispatch (Event.mk ["IN_MOVED_FROM"] ["f"] false true) = Action.removeFile :=
  (C3_rule_order (Event.mk ["IN_MOVED_FROM"] ["f"] false true)).1
    (by decide) (by decide) (by decide) (by decide)

/-! ## List-level helpers for the association lists of `FS` -/

theorem find?_key_filter_out (l : List (List String × FileMeta)) (p q : List String)
    (hne : q ≠ p) :
    (l.filter (fun d => !(d.1 = p : Bool))).find? (fun d => (d.1 = q : Bool)) =
      l.find? (fun d => (d.1 = q : Bool)) := by
  induction l with
  | nil => rfl
  | cons d l ih =>
    by_cases hp : d.1 = p
    · rw [List.filter_cons_of_neg (by simp [hp]),
        List.find?_cons_of_neg _ (by simp [hp, hne.symm]), ih]
    · rw [List.filter_cons_of_pos (by simp [hp])]
      by_cases hq : d.1 = q
      · rw [List.find?_cons_of_pos _ (by simp [hq]), List.find?_cons_of_pos _ (by simp [hq])]
      · rw [List.find?_cons_of_neg _ (by simp [hq]), List.find?_cons_of_neg _ (by simp [hq]), ih]

theorem find?_key_filter_self (l : List (List String × FileMeta)) (p : List String) :
    (l.filter (fun d => !(d.1 = p : Bool))).find? (fun d => (d.1 = p : Bool)) = none := by
  induction l with
  | nil => rfl
  | cons d l ih =>
    by_cases hp : d.1 = p
    · rw [List.filter_cons_of_neg (by simp [hp]), ih]
    · rw [List.filter_cons_of_pos (by simp [hp]), List.find?_cons_of_neg _ (by simp [hp]), ih]

theorem find?_key_mem_of_some {l : List (List String × FileMeta)} {q : List String}
    {d : List String × FileMeta} (h : l.find? (fun d => (d.1 = q : Bool)) = some d) :
    d ∈ l ∧ d.1 = q := by
  have h1 := List.find?_some h
  have h2 := List.mem_of_find?_eq_some h
  simp at h1
  exact ⟨h2, h1⟩

/-! ## Basic lemmas about the `FS` operations -/

theorem lookupDir_rmdir (fs : FS) (p q : List String) :
    lookupDir (rmdirFS fs p) q = if q = p then none else lookupDir fs q := by
  unfold lookupDir rmdirFS
  by_cases h : q = p
  · simp [h, find?_key_filter_self]
  · simp [h, find?_key_filter_out fs.dirs p q h]

theorem dirExists_rmdir (fs : FS) (p q : List String) :
    dirExists (rmdirFS fs p) q = if q = p then false else dirExists fs q := by
  unfold dirExists
  rw [lookupDir_rmdir]
  by_cases h : q = p <;> simp [h]

theorem rmdir_files (fs : FS) (p : List String) : (rmdirFS fs p).files = fs.files := rfl

theorem rmdir_dirs_mem (fs : FS) (p : List String) :
    ∀ x ∈ (rmdirFS fs p).dirs, x ∈ fs.dirs := by
  intro x hx
  exact List.mem_of_mem_filter hx

theorem eraseFile_dirs (fs : FS) (p : List String) : (eraseFile fs p).dirs = fs.dirs := rfl

theorem dirExists_eraseFile (fs : FS) (p q : List String) :
    dirExists (eraseFile fs p) q = dirExists fs q := rfl

theorem listdirEmpty_of_sub (fs fs' : FS) (p : List String)
    (hf : ∀ x ∈ fs'.files, x ∈ fs.files) (hd : ∀ x ∈ fs'.dirs, x ∈ fs.dirs)
    (h : listdirEmpty fs p = true) : listdirEmpty fs' p = true := by
  unfold listdirEmpty at *
  simp only [Bool.and_eq_true, Bool.not_eq_true', List.any_eq_false] at *
  exact ⟨fun x hx => h.1 x (hf x hx), fun x hx => h.2 x (hd x hx)⟩

/-! ## Lemmas about the ancestor-pruning loop -/

theorem prune_eq_step (fs : FS) (p : List String) (h : p ≠ [])
    (h1 : dirExists fs p = true) (h2 : listdirEmpty fs p = true) :
    pruneEmptyDirs fs p = pruneEmptyDirs (rmdirFS fs p) p.dropLast := by
  rw [pruneEmptyDirs]
  simp [h, h1, h2]

theorem prune_eq_stop (fs : FS) (p : List String)
    (h : p = [] ∨ dirExists fs p = false ∨ listdirEmpty fs p = false) :
    pruneEmptyDirs fs p = fs := by
  rw [pruneEmptyDirs]
  rcases h with h | h | h
  · simp [h]
  · by_cases hp : p = [] <;> simp [hp, h]
  · by_cases hp : p = [] <;> by_cases h1 : dirExists fs p = true <;> simp [hp, h1, h]

theorem prune_files (fs : FS) (p : List String) :
    (pruneEmptyDirs fs p).files = fs.files := by
  induction fs, p using pruneEmptyDirs.induct with
  | case1 fs => rw [prune_eq_stop fs [] (Or.inl rfl)]
  | case2 fs p h h1 h2 ih =>
    rw [prune_eq_step fs p h h1 h2]
    rw [ih, rmdir_files]
  | case3 fs p h h1 h2 =>
    rw [prune_eq_stop fs p (Or.inr (Or.inr (by simpa using h2)))]
  | case4 fs p h h1 =>
    rw [prune_eq_stop fs p (Or.inr (Or.inl (by simpa using h1)))]

theorem prune_dirs_mem (fs : FS) (p : List String) :
    ∀ x ∈ (pruneEmptyDirs fs p).dirs, x ∈ fs.dirs := by
  induction fs, p using pruneEmptyDirs.induct with
  | case1 fs => rw [prune_eq_stop fs [] (Or.inl rfl)]; exact fun x hx => hx
  | case2 fs p h h1 h2 ih =>
    rw [prune_eq_step fs p h h1 h2]
    exact fun x hx => rmdir_dirs_mem fs p x (ih x hx)
  | case3 fs p h h1 h2 =>
    rw [prune_eq_stop fs p (Or.inr (Or.inr (by simpa using h2)))]; exact fun x hx => hx
  | case4 fs p h h1 =>
    rw [prune_eq_stop fs p (Or.inr (Or.inl (by simpa using h1)))]; exact fun x hx => hx

theorem dirExists_of_prune (fs : FS) (p q : List String)
    (h : dirExists (pruneEmptyDirs fs p) q = true) : dirExists fs q = true := by
  unfold dirExists lookupDir at *
  rw [Option.isSome_map'] at *
  rw [List.find?_isSome] at *
  obtain ⟨d, hmem, hkey⟩ := h
  exact ⟨d, prune_dirs_mem fs p d hmem, hkey⟩

theorem prefix_dropLast_of_proper {e p : List String} (h : e <+: p) (hne : e ≠ p) :
    e <+: p.dropLast := by
  obtain ⟨t, rfl⟩ := h
  rcases t with _ | ⟨c, t⟩
  · simp at hne
  · rw [List.dropLast_append_of_ne_nil e (by simp)]
    exact List.prefix_append e (c :: t).dropLast

/-- Every directory removed by the pruning walk is a nonempty prefix of
the starting parent (in particular the backup root is never removed). -/
theorem prune_removed_prefix (fs : FS) (p : List String) :
    ∀ q, dirExists fs q = true → dirExists (pruneEmptyDirs fs p) q = false →
      q ≠ [] ∧ q <+: p := by
  induction fs, p using pruneEmptyDirs.induct with
  | case1 fs =>
    intro q hq hq'
    rw [prune_eq_stop fs [] (Or.inl rfl)] at hq'
    rw [hq] at hq'; cases hq'
  | case2 fs p h h1 h2 ih =>
    intro q hq hq'
    rw [prune_eq_step fs p h h1 h2] at hq'
    by_cases hqp : q = p
    · exact ⟨hqp ▸ h, hqp ▸ List.prefix_refl p⟩
    · have hq2 : dirExists (rmdirFS fs p) q = true := by
        rw [dirExists_rmdir, if_neg hqp]; exact hq
      obtain ⟨hne, hpre⟩ := ih q hq2 hq'
      exact ⟨hne, hpre.trans ( List.dropLast_prefix p)⟩
  | case3 fs p h h1 h2 =>
    intro q hq hq'
    rw [prune_eq_stop fs p (Or.inr (Or.inr (by simpa using h2)))] at hq'
    rw [hq] at hq'; cases hq'
  | case4 fs p h h1 =>
    intro q hq hq'
    rw [prune_eq_stop fs p (Or.inr (Or.inl (by simpa using h1)))] at hq'
    rw [hq] at hq'; cases hq'

/-- Every directory removed by the pruning walk is empty in the final
state: the walk only removes directories whose listing was empty, and
later steps only remove entries. -/
theorem prune_removed_empty (fs : FS) (p : List String) :
    ∀ q, dirExists fs q = true → dirExists (pruneEmptyDirs fs p) q = false →
      listdirEmpty (pruneEmptyDirs fs p) q = true := by
  induction fs, p using pruneEmptyDirs.induct with
  | case1 fs =>
    intro q hq hq'
    rw [prune_eq_stop fs [] (Or.inl rfl)] at hq'
    rw [hq] at hq'; cases hq'
  | case2 fs p h h1 h2 ih =>
    intro q hq hq'
    rw [prune_eq_step fs p h h1 h2] at hq' ⊢
    by_cases hqp : q = p
    · subst hqp
      refine listdirEmpty_of_sub fs _ q ?_ ?_ h2
      · intro x hx
        rw [prune_files, rmdir_files] at hx; exact hx
      · intro x hx
        exact rmdir_dirs_mem fs q x (prune_dirs_mem _ _ x hx)
    · have hq2 : dirExists (rmdirFS fs p) q = true := by
        rw [dirExists_rmdir, if_neg hqp]; exact hq
      exact ih q hq2 hq'
  | case3 fs p h h1 h2 =>
    intro q hq hq'
    rw [prune_eq_stop fs p (Or.inr (Or.inr (by simpa using h2)))] at hq'
    rw [hq] at hq'; cases hq'
  | case4 fs p h h1 =>
    intro q hq hq'
    rw [prune_eq_stop fs p (Or.inr (Or.inl (by simpa using h1)))] at hq'
    rw [hq] at hq'; cases hq'

/-- If the starting parent exists and is empty, the first pruning step
removes it. -/
theorem prune_removes_head (fs : FS) (p : List String) (h : p ≠ [])
    (h1 : dirExists fs p = true) (h2 : listdirEmpty fs p = true) :
    dirExists (pruneEmptyDirs fs p) p = false := by
  rw [prune_eq_step fs p h h1 h2]
  by_cases hc : dirExists (pruneEmptyDirs (rmdirFS fs p) p.dropLast) p = true
  · have := dirExists_of_prune (rmdirFS fs p) p.dropLast p hc
    rw [dirExists_rmdir, if_pos rfl] at this
    cases this
  · simpa using hc

/-- The pruning walk is contiguous: when it removes a directory `d`,
it also removed every directory strictly between `d` and the starting
parent (each such directory existed and is gone afterwards). -/
theorem prune_removed_between (fs : FS) (p : List String) :
    ∀ d, dirExists fs d = true → dirExists (pruneEmptyDirs fs p) d = false →
      ∀ e, d <+: e → e ≠ d → e <+: p →
        dirExists fs e = true ∧ dirExists (pruneEmptyDirs fs p) e = false := by
  induction fs, p using pruneEmptyDirs.induct with
  | case1 fs =>
    intro d hd hd' e
    rw [prune_eq_stop fs [] (Or.inl rfl)] at hd'
    rw [hd] at hd'; cases hd'
  | case2 fs p h h1 h2 ih =>
    intro d hd hd' e hde hed hep
    rw [prune_eq_step fs p h h1 h2] at hd' ⊢
    by_cases hdp : d = p
    · subst hdp
      have : e = d := List.eq_of_prefix_of_length_eq hep (Nat.le_antisymm hep.length_le hde.length_le)
      exact absurd this hed
    · have hd2 : dirExists (rmdirFS fs p) d = true := by
        rw [dirExists_rmdir, if_neg hdp]; exact hd
      by_cases hepq : e = p
      · subst hepq
        constructor
        · exact h1
        · by_cases hc : dirExists (pruneEmptyDirs (rmdirFS fs e) e.dropLast) e = true
          · have := dirExists_of_prune (rmdirFS fs e) e.dropLast e hc
            rw [dirExists_rmdir, if_pos rfl] at this
            cases this
          · simpa using hc
      · have hep' : e <+: p.dropLast := prefix_dropLast_of_proper hep hepq
        obtain ⟨he1, he2⟩ := ih d hd2 hd' e hde hed hep'
        rw [dirExists_rmdir, if_neg hepq] at he1
        exact ⟨he1, he2⟩
  | case3 fs p h h1 h2 =>
    intro d hd hd' e
    rw [prune_eq_stop fs p (Or.inr (Or.inr (by simpa using h2)))] at hd'
    rw [hd] at hd'; cases hd'
  | case4 fs p h h1 =>
    intro d hd hd' e
    rw [prune_eq_stop fs p (Or.inr (Or.inl (by simpa using h1)))] at hd'
    rw [hd] at hd'; cases hd'

/-- The pruning walk stops exactly at the first parent that is missing
or non-empty: if it removed `d`, and the parent of `d` exists and is
empty in the final state, the parent was removed as well. -/
theorem prune_removed_chain (fs : FS) (p : List String) :
    ∀ q, dirExists fs q = true → dirExists (pruneEmptyDirs fs p) q = false →
      q.dropLast ≠ [] → dirExists fs q.dropLast = true →
      listdirEmpty (pruneEmptyDirs fs p) q.dropLast = true →
      dirExists (pruneEmptyDirs fs p) q.dropLast = false := by
  induction fs, p using pruneEmptyDirs.induct with
  | case1 fs =>
    intro q hq hq'
    rw [prune_eq_stop fs [] (Or.inl rfl)] at hq'
    rw [hq] at hq'; cases hq'
  | case2 fs p h h1 h2 ih =>
    intro q hq hq' hqd hqde hempty
    rw [prune_eq_step fs p h h1 h2] at hq' hempty ⊢
    by_cases hqp : q = p
    · subst hqp
      have hqdp : q.dropLast ≠ q := by
        intro hcontra
        have := congrArg List.length hcontra
        rw [List.length_dropLast] at this
        have : 0 < q.length := List.length_pos.mpr h
        omega
      have hqd2 : dirExists (rmdirFS fs q) q.dropLast = true := by
        rw [dirExists_rmdir, if_neg hqdp]; exact hqde
      by_cases hle : listdirEmpty (rmdirFS fs q) q.dropLast = true
      · rw [prune_eq_step (rmdirFS fs q) q.dropLast hqd hqd2 hle]
        by_cases hc : dirExists
            (pruneEmptyDirs (rmdirFS (rmdirFS fs q) q.dropLast) q.dropLast.dropLast)
            q.dropLast = true
        · have := dirExists_of_prune _ _ _ hc
          rw [dirExists_rmdir, if_pos rfl] at this
          cases this
        · simpa using hc
      · rw [prune_eq_stop (rmdirFS fs q) q.dropLast
            (Or.inr (Or.inr (by simpa using hle)))] at hempty
        rw [hempty] at hle
        cases hle rfl
    · have hq2 : dirExists (rmdirFS fs p) q = true := by
        rw [dirExists_rmdir, if_neg hqp]; exact hq
      by_cases hqdp : q.dropLast = p
      · by_cases hc : dirExists (pruneEmptyDirs (rmdirFS fs p) p.dropLast) q.dropLast = true
        · have := dirExists_of_prune _ _ _ hc
          rw [hqdp, dirExists_rmdir, if_pos rfl] at this
          cases this
        · simpa using hc
      · have hqde2 : dirExists (rmdirFS fs p) q.dropLast = true := by
          rw [dirExists_rmdir, if_neg hqdp]; exact hqde
        exact ih q hq2 hq' hqd hqde2 hempty
  | case3 fs p h h1 h2 =>
    intro q hq hq'
    rw [prune_eq_stop fs p (Or.inr (Or.inr (by simpa using h2)))] at hq'
    rw [hq] at hq'; cases hq'
  | case4 fs p h h1 =>
    intro q hq hq'
    rw [prune_eq_stop fs p (Or.inr (Or.inl (by simpa using h1)))] at hq'
    rw [hq] at hq'; cases hq'

/-- C8: when `remove_file` deletes an existing backup file (not in
dry-run, not excluded), it raises no alert; only that file leaves the
file set; directories are only ever removed, every removed directory is
a nonempty prefix of the parent chain of the deleted file (so the walk
stops strictly before the backup root) and is empty afterwards; the
removed directories are contiguous from the immediate parent upwards;
the walk takes the first step whenever the immediate parent exists and
became empty; and it continues past a removed directory exactly while
the next parent exists and is empty (stopping silently otherwise). -/
theorem C8_remove_file_prunes_empty_ancestors (fs : FS) (rel : List String)
    (hx : should_exclude (get_backup_path rel) = false)
    (h : fileExists fs rel = true) :
    (remove_file false fs rel).2 = false ∧
    (remove_file false fs rel).1.files = fs.files.filter (fun f => !(f.1 = rel : Bool)) ∧
    (∀ d, dirExists (remove_file false fs rel).1 d = true → dirExists fs d = true) ∧
    (∀ d, dirExists fs d = true → dirExists (remove_file false fs rel).1 d = false →
      d ≠ [] ∧ d <+: rel.dropLast ∧ listdirEmpty (remove_file false fs rel).1 d = true) ∧
    (∀ d, dirExists fs d = true → dirExists (remove_file false fs rel).1 d = false →
      ∀ e, d <+: e → e ≠ d → e <+: rel.dropLast →
        dirExists fs e = true ∧ dirExists (remove_file false fs rel).1 e = false) ∧
    (rel.dropLast ≠ [] → dirExists fs rel.dropLast = true →
      listdirEmpty (eraseFile fs rel) rel.dropLast = true →
      dirExists (remove_file false fs rel).1 rel.dropLast = false) ∧
    (∀ d, dirExists fs d = true → dirExists (remove_file false fs rel).1 d = false →
      d.dropLast ≠ [] → dirExists fs d.dropLast = true →
      listdirEmpty (remove_file false fs rel).1 d.dropLast = true →
      dirExists (remove_file false fs rel).1 d.dropLast = false) := by
  have hpath : pathExists fs rel = true := by
    unfold pathExists
    rw [h]
    rfl
  have hre : remove_file false fs rel =
      (pruneEmptyDirs (eraseFile fs rel) rel.dropLast, false) := by
    unfold remove_file
    rw [if_neg (by simp [hx]), if_pos hpath, if_neg (by simp), if_pos h]
  have hdir : ∀ d, dirExists (eraseFile fs rel) d = dirExists fs d := fun d => rfl
  rw [hre]
  refine ⟨rfl, ?_, ?_, ?_, ?_, ?_, ?_⟩
  · rw [prune_files]
    rfl
  · intro d hd
    rw [← hdir d]
    exact dirExists_of_prune _ _ _ hd
  · intro d hd hd'
    obtain ⟨h1, h2⟩ := prune_removed_prefix (eraseFile fs rel) rel.dropLast d
      ((hdir d).trans hd) hd'
    exact ⟨h1, h2, prune_removed_empty (eraseFile fs rel) rel.dropLast d
      ((hdir d).trans hd) hd'⟩
  · intro d hd hd' e hde hed hep
    obtain ⟨h1, h2⟩ := prune_removed_between (eraseFile fs rel) rel.dropLast d
      ((hdir d).trans hd) hd' e hde hed hep
    exact ⟨(hdir e).symm.trans h1, h2⟩
  · intro h1 h2 h3
    exact prune_removes_head (eraseFile fs rel) rel.dropLast h1 ((hdir _).trans h2) h3
  · intro d hd hd' hq1 hq2 hq3
    exact prune_removed_chain (eraseFile fs rel) rel.dropLast d ((hdir d).trans hd) hd'
      hq1 ((hdir _).trans hq2) hq3

/-- Witness for C8: deleting `a/b/c` removes the file and prunes the
now-empty ancestors `a/b` and `a`, leaving the unrelated directory `z`,
with no alert. -/
theorem C8_remove_file_prunes_empty_ancestors_witness :
    (remove_file false
        ⟨[(["a", "b", "c"], ⟨1, 1⟩)],
         [(["a"], ⟨0, 0⟩), (["a", "b"], ⟨0, 0⟩), (["z"], ⟨0, 0⟩)]⟩ ["a", "b", "c"]).2 = false ∧
    dirExists (remove_file false
        ⟨[(["a", "b", "c"], ⟨1, 1⟩)],
         [(["a"], ⟨0, 0⟩), (["a", "b"], ⟨0, 0⟩), (["z"], ⟨0, 0⟩)]⟩ ["a", "b", "c"]).1
      ["a", "b"] = false := by
  have H := C8_remove_file_prunes_empty_ancestors
    ⟨[(["a", "b", "c"], ⟨1, 1⟩)],
     [(["a"], ⟨0, 0⟩), (["a", "b"], ⟨0, 0⟩), (["z"], ⟨0, 0⟩)]⟩ ["a", "b", "c"]
    (by decide) (by decide)
  exact ⟨H.1, H.2.2.2.2.2.1 (by decide) (by decide) (by decide)⟩

/-! ## Substring reasoning for the exclusion test

The excluded pattern contains no path separator, so it occurs in a
joined path iff it occurs in one of the joined pieces; this is what
makes the per-file exclusion check equivalent to the source's
prune-excluded-directories walk, and what confines mutations of
non-excluded paths to non-excluded targets. -/

theorem infix_extend_right {pat s : List Char} (t : List Char) (h : pat <:+: s) :
    pat <:+: s ++ t := by
  obtain ⟨u, v, rfl⟩ := h
  exact ⟨u, v ++ t, by simp⟩

theorem infix_extend_left {pat t : List Char} (s : List Char) (h : pat <:+: t) :
    pat <:+: s ++ t := by
  obtain ⟨u, v, rfl⟩ := h
  exact ⟨s ++ u, v, by simp⟩

theorem prefix_of_append_cons {c : Char} {pat : List Char} (hc : c ∉ pat) :
    ∀ {a b : List Char}, pat <+: a ++ c :: b → pat <+: a := by
  induction pat with
  | nil => intro a b _; exact List.nil_prefix
  | cons x p ih =>
    intro a b h
    cases a with
    | nil =>
      obtain ⟨t, ht⟩ := h
      simp only [List.nil_append, List.cons_append, List.cons.injEq] at ht
      exact absurd (ht.1 ▸ List.mem_cons_self x p) hc
    | cons y a' =>
      rw [List.cons_append] at h
      rw [List.cons_prefix_cons] at h
      obtain ⟨hxy, hp⟩ := h
      rw [List.cons_prefix_cons]
      exact ⟨hxy, ih (fun hm => hc (List.mem_cons_of_mem x hm)) hp⟩

theorem infix_of_append_cons {c : Char} {pat : List Char} (hc : c ∉ pat) :
    ∀ {a b : List Char}, pat <:+: a ++ c :: b → pat <:+: a ∨ pat <:+: b := by
  intro a
  induction a with
  | nil =>
    intro b h
    rw [List.nil_append, List.infix_cons_iff] at h
    rcases h with hp | hi
    · cases pat with
      | nil => exact Or.inl (List.nil_infix)
      | cons x p =>
        obtain ⟨t, ht⟩ := hp
        simp only [List.cons_append, List.cons.injEq] at ht
        exact absurd (ht.1 ▸ List.mem_cons_self x p) hc
    · exact Or.inr hi
  | cons y a' ih =>
    intro b h
    rw [List.cons_append, List.infix_cons_iff] at h
    rcases h with hp | hi
    · rw [← List.cons_append] at hp
      exact Or.inl (prefix_of_append_cons hc hp).isInfix
    · rcases ih hi with h1 | h1
      · exact Or.inl (List.infix_cons h1)
      · exact Or.inr h1

theorem should_exclude_iff (s : String) :
    should_exclude s = true ↔ "System Volume Information".data <:+: s.data := by
  simp [should_exclude, EXCLUDED_PATHS]

theorem joinPath_append (r : String) (a b : List String) :
    joinPath r (a ++ b) = joinPath (joinPath r a) b := by
  unfold joinPath
  rw [List.foldl_append]

/-- Monotonicity: a pattern occurring in the join of a prefix occurs in
the join of the whole path. -/
theorem should_exclude_mono {r : String} {a b : List String} (hab : a <+: b)
    (h : should_exclude (joinPath r a) = true) : should_exclude (joinPath r b) = true := by
  obtain ⟨t, rfl⟩ := hab
  rw [joinPath_append]
  rw [should_exclude_iff] at h ⊢
  generalize joinPath r a = s at h ⊢
  induction t generalizing s with
  | nil => exact h
  | cons c t ih =>
    show "System Volume Information".data <:+: (joinPath (s ++ "/" ++ c) t).data
    refine ih (s ++ "/" ++ c) ?_
    rw [String.data_append, String.data_append]
    exact infix_extend_right _ (infix_extend_right _ h)

/-- A pattern without a separator occurring in `join r (w ++ [x])`
occurs in `join r w` or in the component `x`. -/
theorem should_exclude_snoc {r : String} {w : List String} {x : String}
    (h : should_exclude (joinPath r (w ++ [x])) = true) :
    should_exclude (joinPath r w) = true ∨ "System Volume Information".data <:+: x.data := by
  rw [joinPath_append] at h
  rw [should_exclude_iff] at h
  have hdata : (joinPath (joinPath r w) [x]).data =
      (joinPath r w).data ++ '/' :: x.data := by
    show ((joinPath r w) ++ "/" ++ x).data = _
    rw [String.data_append, String.data_append]
    simp
  rw [hdata] at h
  have hc : '/' ∉ "System Volume Information".data := by decide
  rcases infix_of_append_cons hc h with h1 | h1
  · left
    rw [should_exclude_iff]
    exact h1
  · right
    exact h1

theorem dropLast_append_getLastD :
    ∀ (l : List String), l ≠ [] → l.dropLast ++ [l.getLastD ""] = l
  | [x], _ => rfl
  | x :: y :: t, _ => by
    have ih := dropLast_append_getLastD (y :: t) (by simp)
    show x :: ((y :: t).dropLast ++ [(y :: t).getLastD ""]) = x :: y :: t
    rw [ih]

/-- A component of a path that contains the pattern makes the whole
joined path excluded. -/
theorem should_exclude_of_comp (r : String) {w : List String} {x : String}
    (hx : x ∈ w) (h : "System Volume Information".data <:+: x.data) :
    should_exclude (joinPath r w) = true := by
  obtain ⟨a, b, rfl⟩ := List.append_of_mem hx
  have h1 : should_exclude (joinPath r (a ++ [x])) = true := by
    rw [joinPath_append, should_exclude_iff]
    show _ <:+: ((joinPath r a) ++ "/" ++ x).data
    rw [String.data_append]
    exact infix_extend_left _ h
  exact should_exclude_mono ⟨b, by simp⟩ h1

/-! ## Lemmas about lookups, `insertFile` and `mkdirs` -/

theorem dirExists_iff (fs : FS) (p : List String) :
    dirExists fs p = true ↔ ∃ d ∈ fs.dirs, d.1 = p := by
  unfold dirExists lookupDir
  rw [Option.isSome_map', List.find?_isSome]
  constructor
  · rintro ⟨d, hd, hkey⟩
    exact ⟨d, hd, of_decide_eq_true hkey⟩
  · rintro ⟨d, hd, hkey⟩
    exact ⟨d, hd, decide_eq_true hkey⟩

theorem fileExists_iff (fs : FS) (p : List String) :
    fileExists fs p = true ↔ ∃ f ∈ fs.files, f.1 = p := by
  unfold fileExists lookupFile
  rw [Option.isSome_map', List.find?_isSome]
  constructor
  · rintro ⟨f, hf, hkey⟩
    exact ⟨f, hf, of_decide_eq_true hkey⟩
  · rintro ⟨f, hf, hkey⟩
    exact ⟨f, hf, decide_eq_true hkey⟩

theorem lookupFile_insert (fs : FS) (q p : List String) (m : FileMeta) :
    lookupFile (insertFile fs q m) p = if p = q then some m else lookupFile fs p := by
  unfold lookupFile insertFile
  by_cases h : p = q
  · subst h
    rw [List.find?_cons_of_pos _ (by simp)]
    simp
  · rw [List.find?_cons_of_neg _ (by simp [Ne.symm h]),
      find?_key_filter_out fs.files q p h, if_neg h]

theorem insertFile_dirs (fs : FS) (q : List String) (m : FileMeta) :
    (insertFile fs q m).dirs = fs.dirs := rfl

theorem mkdirs_files (fs : FS) (w : List String) : (mkdirs fs w).files = fs.files := rfl

theorem mem_prefixesOf {p w : List String} : p ∈ prefixesOf w ↔ p <+: w := by
  unfold prefixesOf
  simp only [List.mem_map, List.mem_range]
  constructor
  · rintro ⟨n, _, rfl⟩
    exact List.take_prefix n w
  · intro h
    exact ⟨p.length, by have := h.length_le; omega, (List.prefix_iff_eq_take.mp h).symm⟩

theorem dirExists_mkdirs (fs : FS) (w p : List String) :
    dirExists (mkdirs fs w) p = true ↔ dirExists fs p = true ∨ (p ≠ [] ∧ p <+: w) := by
  rw [dirExists_iff, dirExists_iff]
  constructor
  · rintro ⟨d, hd, hkey⟩
    rw [show (mkdirs fs w).dirs =
        ((prefixesOf w).filter (fun q => !q.isEmpty && !dirExists fs q)).map
          (fun q => (q, (⟨0, 0⟩ : FileMeta))) ++ fs.dirs from rfl, List.mem_append] at hd
    rcases hd with hd | hd
    · simp only [List.mem_map, List.mem_filter, Bool.and_eq_true, Bool.not_eq_true'] at hd
      obtain ⟨q, ⟨hqmem, hq1, _⟩, rfl⟩ := hd
      right
      have hkey' : q = p := hkey
      subst hkey'
      refine ⟨?_, mem_prefixesOf.mp hqmem⟩
      intro hnil
      rw [hnil] at hq1
      cases hq1
    · exact Or.inl ⟨d, hd, hkey⟩
  · rintro (⟨d, hd, hkey⟩ | ⟨hne, hpre⟩)
    · exact ⟨d, List.mem_append.mpr (Or.inr hd), hkey⟩
    · by_cases hex : dirExists fs p = true
      · rw [dirExists_iff] at hex
        obtain ⟨d, hd, hkey⟩ := hex
        exact ⟨d, List.mem_append.mpr (Or.inr hd), hkey⟩
      · refine ⟨(p, ⟨0, 0⟩), List.mem_append.mpr (Or.inl ?_), rfl⟩
        rw [List.mem_map]
        refine ⟨p, List.mem_filter.mpr ⟨mem_prefixesOf.mpr hpre, ?_⟩, rfl⟩
        simp only [Bool.and_eq_true, Bool.not_eq_true']
        exact ⟨by simpa using hne, by simpa using hex⟩

/-! ## Exclusion frame: no operation mutates an excluded path, outside
the orphan pass -/

theorem sync_file_excluded (dry : Bool) (prim back : FS) (rel : List String)
    (h : should_exclude (joinPath BOOT_USB rel) = true) :
    sync_file dry prim back rel = (back, false) := by
  unfold sync_file
  rw [if_pos h]

theorem remove_file_excluded (dry : Bool) (fs : FS) (rel : List String)
    (h : should_exclude (get_backup_path rel) = true) :
    remove_file dry fs rel = (fs, false) := by
  unfold remove_file
  rw [if_pos h]

theorem remove_directory_excluded (dry : Bool) (fs : FS) (rel : List String)
    (h : should_exclude (get_backup_path rel) = true) :
    remove_directory dry fs rel = (fs, false) := by
  unfold remove_directory
  rw [if_pos h]

theorem applyEvent_excluded (dry : Bool) (prim fs : FS) (e : Event)
    (h : should_exclude (joinPath BOOT_USB e.rel) = true) :
    applyEvent dry prim fs e = (fs, false) := by
  unfold applyEvent
  have hd : dispatch e = Action.skip := by
    unfold dispatch
    rw [if_pos h]
  rw [hd]

/-- A non-excluded sync leaves every excluded path untouched on the
backup side: neither the file entry nor the directory entry at an
excluded path changes. -/
theorem sync_file_excl_frame (prim back : FS) (q p : List String)
    (hq : should_exclude (joinPath BOOT_USB q) = false)
    (hp : should_exclude (joinPath BOOT_USB p) = true) :
    lookupFile (sync_file false prim back q).1 p = lookupFile back p ∧
    dirExists (sync_file false prim back q).1 p = dirExists back p := by
  have hpq : p ≠ q := by
    intro h
    rw [h, hq] at hp
    cases hp
  have hnd : ¬(p ≠ [] ∧ p <+: q.dropLast) := by
    rintro ⟨-, hpre⟩
    have := should_exclude_mono (hpre.trans ( List.dropLast_prefix q)) hp
    rw [this] at hq
    cases hq
  have hmk : ∀ fs : FS, dirExists (mkdirs fs q.dropLast) p = dirExists fs p := by
    intro fs
    rw [Bool.eq_iff_iff, dirExists_mkdirs]
    exact or_iff_left hnd
  have hsnoc : p ≠ q ++ [q.getLastD ""] := by
    intro hcontra
    rw [hcontra] at hp
    rcases should_exclude_snoc hp with h1 | h1
    · rw [h1] at hq; cases hq
    · rcases List.eq_nil_or_concat q with hq0 | ⟨w, x, hqe⟩
      · rw [hq0] at h1
        exact absurd h1 (by decide)
      · have hlast : q.getLastD "" = x := by
          rw [hqe, List.concat_eq_append]
          exact List.getLastD_concat _ _ _
        rw [hlast] at h1
        have hxmem : x ∈ q := by
          rw [hqe, List.concat_eq_append]
          exact List.mem_append.mpr (Or.inr (List.mem_singleton.mpr rfl))
        have := should_exclude_of_comp BOOT_USB hxmem h1
        rw [this] at hq
        cases hq
  unfold sync_file
  rw [if_neg (by simp [hq]), if_neg (by simp)]
  by_cases hb : ancestorBlocked back q.dropLast = true
  · rw [if_pos hb]
    exact ⟨rfl, rfl⟩
  · rw [if_neg hb]
    by_cases hpm : fileExists prim q = false
    · rw [if_pos hpm]
      exact ⟨rfl, hmk back⟩
    · rw [if_neg hpm]
      by_cases hd1 : dirExists (mkdirs back q.dropLast) q = true
      · rw [if_pos hd1]
        by_cases hd2 : dirExists (mkdirs back q.dropLast) (q ++ [q.getLastD ""]) = true
        · rw [if_pos hd2]
          exact ⟨rfl, hmk back⟩
        · rw [if_neg hd2]
          refine ⟨?_, hmk back⟩
          show lookupFile (insertFile (mkdirs back q.dropLast) (q ++ [q.getLastD ""])
            ((lookupFile prim q).getD ⟨0, 0⟩)) p = _
          rw [lookupFile_insert, if_neg hsnoc]
          rfl
      · rw [if_neg hd1]
        refine ⟨?_, hmk back⟩
        show lookupFile (insertFile (mkdirs back q.dropLast) q
          ((lookupFile prim q).getD ⟨0, 0⟩)) p = _
        rw [lookupFile_insert, if_neg hpq]
        rfl

/-- The forward pass of `initial_sync` leaves every excluded backup
path untouched. -/
theorem forwardPass_excl_frame (prim : FS) :
    ∀ (l : List (List String × FileMeta)) (back : FS) (p : List String),
      should_exclude (joinPath BOOT_USB p) = true →
      lookupFile (forwardPass false prim l back).1 p = lookupFile back p ∧
      dirExists (forwardPass false prim l back).1 p = dirExists back p := by
  intro l
  induction l with
  | nil => intro back p _; exact ⟨rfl, rfl⟩
  | cons qm rest ih =>
    intro back p hp
    obtain ⟨q, m⟩ := qm
    rw [forwardPass]
    by_cases hq : should_exclude (joinPath BOOT_USB q) = true
    · rw [if_pos hq]
      exact ih back p hp
    · rw [if_neg hq]
      by_cases hn : needs_sync m back q = true
      · rw [if_pos hn]
        have hsf := sync_file_excl_frame prim back q p (by simpa using hq) hp
        have hrec := ih (sync_file false prim back q).1 p hp
        exact ⟨hrec.1.trans hsf.1, hrec.2.trans hsf.2⟩
      · rw [if_neg hn]
        exact ih back p hp

/-- C2 counterexample: the orphan-cleanup pass of `initial_sync` does
not filter exclusions.  With an empty primary tree and a backup tree
holding one file under `System Volume Information`, whose backup path
is excluded, `initial_sync` deletes that file (the backup file set
becomes empty and one change is counted) - a filesystem mutation at an
excluded path. -/
theorem C2_counterexample :
    should_exclude (get_backup_path ["System Volume Information", "x"]) = true ∧
    (initial_sync ⟨[], []⟩ ⟨[(["System Volume Information", "x"], ⟨0, 0⟩)], []⟩
        false).1.files = [] ∧
    (initial_sync ⟨[], []⟩ ⟨[(["System Volume Information", "x"], ⟨0, 0⟩)], []⟩
        false).2 = 1 := by
  refine ⟨by decide, by decide, by decide⟩

/-- C2 (amended): outside the orphan-cleanup pass, exclusion invariance
holds: `sync_file`, `remove_file`, `remove_directory` and event
handling are complete no-ops on excluded inputs, and the forward pass of
`initial_sync` never creates, overwrites or removes a backup entry
(file or directory) at an excluded path; the orphan-cleanup pass,
however, does delete excluded backup files with no primary counterpart. -/
theorem C2_exclusion_invariance (dry : Bool) (prim back fs : FS) (rel : List String)
    (e : Event) (p : List String) :
    (should_exclude (joinPath BOOT_USB rel) = true →
      sync_file dry prim back rel = (back, false)) ∧
    (should_exclude (get_backup_path rel) = true →
      remove_file dry fs rel = (fs, false)) ∧
    (should_exclude (get_backup_path rel) = true →
      remove_directory dry fs rel = (fs, false)) ∧
    (should_exclude (joinPath BOOT_USB e.rel) = true →
      applyEvent dry prim fs e = (fs, false)) ∧
    (should_exclude (joinPath BOOT_USB p) = true →
      lookupFile (forwardPass false prim prim.files back).1 p = lookupFile back p ∧
      dirExists (forwardPass false prim prim.files back).1 p = dirExists back p) :=
  ⟨sync_file_excluded dry prim back rel,
   remove_file_excluded dry fs rel,
   remove_directory_excluded dry fs rel,
   applyEvent_excluded dry prim fs e,
   forwardPass_excl_frame prim prim.files back p⟩

/-- Witness for C2 (amended) at a concrete excluded path. -/
theorem C2_exclusion_invariance_witness :
    remove_file false ⟨[(["System Volume Information", "x"], ⟨0, 0⟩)], []⟩
        ["System Volume Information", "x"] =
      (⟨[(["System Volume Information", "x"], ⟨0, 0⟩)], []⟩, false) :=
  (C2_exclusion_invariance false ⟨[], []⟩ ⟨[], []⟩
      ⟨[(["System Volume Information", "x"], ⟨0, 0⟩)], []⟩
      ["System Volume Information", "x"] ⟨[], [], false, false⟩ []).2.1 (by decide)

/-! ## Reconciler idempotence (C4): helper lemmas -/

theorem find?_key_of_mem_nodup (l : List (List String × FileMeta))
    (hnd : (l.map Prod.fst).Nodup) {q : List String} {mq : FileMeta}
    (hmem : (q, mq) ∈ l) :
    l.find? (fun f => (f.1 = q : Bool)) = some (q, mq) := by
  induction l with
  | nil => cases hmem
  | cons a l ih =>
    rw [List.map_cons] at hnd
    obtain ⟨ha, hnd'⟩ := List.nodup_cons.mp hnd
    rcases List.mem_cons.mp hmem with h | h
    · subst h
      rw [List.find?_cons_of_pos _ (by simp)]
    · have hq : q ∈ l.map Prod.fst := List.mem_map.mpr ⟨(q, mq), h, rfl⟩
      have hne : ¬(a.1 = q) := fun hc => ha (hc ▸ hq)
      rw [List.find?_cons_of_neg _ (by simp [hne])]
      exact ih hnd' h

theorem lookupFile_of_mem_nodup (fs : FS) (hnd : (fs.files.map Prod.fst).Nodup)
    {q : List String} {mq : FileMeta} (hmem : (q, mq) ∈ fs.files) :
    lookupFile fs q = some mq := by
  unfold lookupFile
  rw [find?_key_of_mem_nodup fs.files hnd hmem]
  rfl

theorem statMeta_of_lookupFile {fs : FS} {p : List String} {m : FileMeta}
    (h : lookupFile fs p = some m) : statMeta fs p = some m := by
  unfold statMeta
  rw [h]

theorem needs_sync_false_of_lookup {m : FileMeta} {back : FS} {p : List String}
    (h : lookupFile back p = some m) : needs_sync m back p = false := by
  unfold needs_sync
  rw [statMeta_of_lookupFile h]
  simp [bne_self_eq_false]

theorem needs_sync_false_elim {m : FileMeta} {back : FS} {p : List String}
    (h : needs_sync m back p = false) : statMeta back p = some m := by
  unfold needs_sync at h
  cases hs : statMeta back p with
  | none => rw [hs] at h; cases h
  | some bm =>
    rw [hs] at h
    simp only [Bool.or_eq_false_iff, bne_eq_false_iff_eq] at h
    obtain ⟨h1, h2⟩ := h
    cases m
    cases bm
    simp_all

/-- The well-behavedness condition for a backup tree relative to a list
of primary files: no backup directory occupies a non-excluded primary
file path, and no backup file occupies a proper ancestor of one. -/
def goodBack (pl : List (List String × FileMeta)) (back : FS) : Prop :=
  ∀ q mq, (q, mq) ∈ pl → should_exclude (joinPath BOOT_USB q) = false →
    dirExists back q = false ∧
    ∀ r, r <+: q → r ≠ q → r ≠ [] → fileExists back r = false

theorem goodBack_tail {q : List String} {mq : FileMeta}
    {rest : List (List String × FileMeta)} {back : FS}
    (hg : goodBack ((q, mq) :: rest) back) : goodBack rest back :=
  fun r mr hmem hx => hg r mr (List.mem_cons_of_mem _ hmem) hx

theorem ancestorBlocked_false {back : FS} {q : List String}
    (hgf : ∀ r, r <+: q → r ≠ q → r ≠ [] → fileExists back r = false) :
    ancestorBlocked back q.dropLast = false := by
  unfold ancestorBlocked
  rw [List.any_eq_false]
  intro r hr
  intro hcon
  obtain ⟨hr1, hr2⟩ := Bool.and_eq_true_iff.mp hcon
  have hr0 : r ≠ [] := by
    intro hc
    rw [hc] at hr1
    exact absurd hr1 (by decide)
  have hrq : r <+: q := (mem_prefixesOf.mp hr).trans ( List.dropLast_prefix q)
  have hrne : r ≠ q := by
    intro hc
    have hlen := (mem_prefixesOf.mp hr).length_le
    rw [List.length_dropLast] at hlen
    have hpos : 0 < r.length := List.length_pos.mpr hr0
    subst hc
    omega
  rw [hgf r hrq hrne hr0] at hr2
  cases hr2

/-- Under the well-behavedness condition, a needed sync is a clean
write: parents are created and the file is copied to exactly its mapped
path, preserving the primary metadata, with no alert. -/
theorem sync_file_clean (prim back : FS) (q : List String) (mq : FileMeta)
    (hx : should_exclude (joinPath BOOT_USB q) = false)
    (hm : lookupFile prim q = some mq)
    (hgd : dirExists back q = false)
    (hgf : ∀ r, r <+: q → r ≠ q → r ≠ [] → fileExists back r = false) :
    sync_file false prim back q = (insertFile (mkdirs back q.dropLast) q mq, false) := by
  have hb : ancestorBlocked back q.dropLast = false := ancestorBlocked_false hgf
  have hfe : fileExists prim q = true := by
    unfold fileExists
    rw [hm]
    rfl
  have hd : dirExists (mkdirs back q.dropLast) q = false := by
    rw [Bool.eq_false_iff]
    intro hdt
    rcases (dirExists_mkdirs back q.dropLast q).mp hdt with h | ⟨hne, hpre⟩
    · rw [hgd] at h; cases h
    · have := hpre.length_le
      rw [List.length_dropLast] at this
      have : 0 < q.length := List.length_pos.mpr hne
      omega
  unfold sync_file
  rw [if_neg (by simp [hx]), if_neg (by simp), if_neg (by simp [hb]),
    if_neg (by simp [hfe]), if_neg (by simp [hd]), hm]
  rfl

/-- Syncing one non-excluded primary file preserves well-behavedness of
the backup for the remaining primary files, provided no remaining file
path is comparable with the synced one. -/
theorem goodBack_insert (rest : List (List String × FileMeta)) (back : FS)
    (q : List String) (mq : FileMeta)
    (hsep : ∀ r mr, (r, mr) ∈ rest → r ≠ q ∧ ¬(q <+: r) ∧ ¬(r <+: q))
    (hg : goodBack rest back) :
    goodBack rest (insertFile (mkdirs back q.dropLast) q mq) := by
  intro r mr hmem hexcl
  obtain ⟨hgd, hgf⟩ := hg r mr hmem hexcl
  obtain ⟨hne, hnqr, hnrq⟩ := hsep r mr hmem
  constructor
  · show dirExists (mkdirs back q.dropLast) r = false
    rw [Bool.eq_false_iff]
    intro hdt
    rcases (dirExists_mkdirs back q.dropLast r).mp hdt with h | ⟨_, hpre⟩
    · rw [hgd] at h; cases h
    · exact hnrq (hpre.trans ( List.dropLast_prefix q))
  · intro s hs hsne hs0
    by_cases hsq : s = q
    · subst hsq
      exact absurd hs hnqr
    · have hlk : lookupFile (insertFile (mkdirs back q.dropLast) q mq) s =
          lookupFile back s := by
        rw [lookupFile_insert, if_neg hsq]
        rfl
      unfold fileExists
      rw [hlk]
      have := hgf s hs hsne hs0
      unfold fileExists at this
      exact this

theorem forwardPass_step_sync (prim : FS) (q : List String) (mq : FileMeta)
    (rest : List (List String × FileMeta)) (back : FS)
    (hx : ¬should_exclude (joinPath BOOT_USB q) = true)
    (hn : needs_sync mq back q = true) :
    forwardPass false prim ((q, mq) :: rest) back =
      ((forwardPass false prim rest (sync_file false prim back q).1).1,
       (forwardPass false prim rest (sync_file false prim back q).1).2 + 1) := by
  rw [forwardPass, if_neg hx, if_pos hn]

/-- Separation of the head of a sublist of a well-formed primary file
list from the remaining entries: distinct keys, neither a prefix of the
other. -/
theorem head_sep (prim : FS)
    (hnd : (prim.files.map Prod.fst).Nodup)
    (hwf : ∀ p mp q mq, (p, mp) ∈ prim.files → (q, mq) ∈ prim.files → p ≠ q →
      ¬(p <+: q))
    {q : List String} {mq : FileMeta} {rest : List (List String × FileMeta)}
    (hsub : List.Sublist ((q, mq) :: rest) prim.files) :
    ∀ r mr, (r, mr) ∈ rest → r ≠ q ∧ ¬(q <+: r) ∧ ¬(r <+: q) := by
  intro r mr hmem
  have hmem_q : (q, mq) ∈ prim.files := hsub.subset (List.mem_cons_self _ _)
  have hmem_r : (r, mr) ∈ prim.files := hsub.subset (List.mem_cons_of_mem _ hmem)
  have hndl : (((q, mq) :: rest).map Prod.fst).Nodup := hnd.sublist (hsub.map Prod.fst)
  rw [List.map_cons] at hndl
  obtain ⟨hq_not, _⟩ := List.nodup_cons.mp hndl
  have hne : r ≠ q := by
    intro hc
    exact hq_not (hc ▸ List.mem_map.mpr ⟨(r, mr), hmem, rfl⟩)
  exact ⟨hne, hwf q mq r mr hmem_q hmem_r (Ne.symm hne), hwf r mr q mq hmem_r hmem_q hne⟩

/-- Keys not named by the remaining work list are untouched by the
forward pass (run under the well-behavedness invariant). -/
theorem forwardPass_frame_key (prim : FS)
    (hnd : (prim.files.map Prod.fst).Nodup)
    (hwf : ∀ p mp q mq, (p, mp) ∈ prim.files → (q, mq) ∈ prim.files → p ≠ q →
      ¬(p <+: q)) :
    ∀ (l : List (List String × FileMeta)) (back : FS) (p₀ : List String),
      List.Sublist l prim.files → goodBack l back →
      (∀ q mq, (q, mq) ∈ l → q ≠ p₀) →
      lookupFile (forwardPass false prim l back).1 p₀ = lookupFile back p₀ := by
  intro l
  induction l with
  | nil => intro back p₀ _ _ _; rfl
  | cons qm rest ih =>
    intro back p₀ hsub hg hne
    obtain ⟨q, mq⟩ := qm
    have hsubrest : List.Sublist rest prim.files :=
      (List.sublist_cons_self (q, mq) rest).trans hsub
    have hnerest : ∀ r mr, (r, mr) ∈ rest → r ≠ p₀ :=
      fun r mr h => hne r mr (List.mem_cons_of_mem _ h)
    by_cases hx : should_exclude (joinPath BOOT_USB q) = true
    · rw [forwardPass, if_pos hx]
      exact ih back p₀ hsubrest (goodBack_tail hg) hnerest
    · by_cases hn : needs_sync mq back q = true
      · rw [forwardPass_step_sync prim q mq rest back hx hn]
        have hmem_q : (q, mq) ∈ prim.files := hsub.subset (List.mem_cons_self _ _)
        have hmq : lookupFile prim q = some mq := lookupFile_of_mem_nodup prim hnd hmem_q
        obtain ⟨hgd, hgf⟩ := hg q mq (List.mem_cons_self _ _) (by simpa using hx)
        rw [sync_file_clean prim back q mq (by simpa using hx) hmq hgd hgf]
        have hg' : goodBack rest (insertFile (mkdirs back q.dropLast) q mq) :=
          goodBack_insert rest back q mq (head_sep prim hnd hwf hsub) (goodBack_tail hg)
        show lookupFile (forwardPass false prim rest
          (insertFile (mkdirs back q.dropLast) q mq)).1 p₀ = _
        rw [ih (insertFile (mkdirs back q.dropLast) q mq) p₀ hsubrest hg' hnerest]
        rw [lookupFile_insert, if_neg (fun hc => hne q mq (List.mem_cons_self _ _) hc.symm)]
        rfl
      · rw [forwardPass, if_neg hx, if_neg hn]
        exact ih back p₀ hsubrest (goodBack_tail hg) hnerest

/-- After the forward pass, every non-excluded primary file has its
exact metadata at its mapped backup path. -/
theorem forwardPass_sets_key (prim : FS)
    (hnd : (prim.files.map Prod.fst).Nodup)
    (hwf : ∀ p mp q mq, (p, mp) ∈ prim.files → (q, mq) ∈ prim.files → p ≠ q →
      ¬(p <+: q)) :
    ∀ (l : List (List String × FileMeta)) (back : FS),
      List.Sublist l prim.files → goodBack l back →
      ∀ p m, (p, m) ∈ l → should_exclude (joinPath BOOT_USB p) = false →
      lookupFile (forwardPass false prim l back).1 p = some m := by
  intro l
  induction l with
  | nil => intro back _ _ p m hmem; cases hmem
  | cons qm rest ih =>
    intro back hsub hg p m hmem hx
    obtain ⟨q, mq⟩ := qm
    have hsubrest : List.Sublist rest prim.files :=
      (List.sublist_cons_self (q, mq) rest).trans hsub
    rcases List.mem_cons.mp hmem with hhead | htail
    · injection hhead with h1 h2
      subst h1
      subst h2
      have hmem_q : (p, m) ∈ prim.files := hsub.subset (List.mem_cons_self _ _)
      have hmq : lookupFile prim p = some m := lookupFile_of_mem_nodup prim hnd hmem_q
      obtain ⟨hgd, hgf⟩ := hg p m (List.mem_cons_self _ _) hx
      have hnerest : ∀ r mr, (r, mr) ∈ rest → r ≠ p := fun r mr h =>
        (head_sep prim hnd hwf hsub r mr h).1
      by_cases hn : needs_sync m back p = true
      · rw [forwardPass_step_sync prim p m rest back (by simp [hx]) hn]
        rw [sync_file_clean prim back p m hx hmq hgd hgf]
        have hg' : goodBack rest (insertFile (mkdirs back p.dropLast) p m) :=
          goodBack_insert rest back p m (head_sep prim hnd hwf hsub) (goodBack_tail hg)
        show lookupFile (forwardPass false prim rest
          (insertFile (mkdirs back p.dropLast) p m)).1 p = _
        rw [forwardPass_frame_key prim hnd hwf rest _ p hsubrest hg' hnerest]
        rw [lookupFile_insert, if_pos rfl]
      · rw [forwardPass, if_neg (by simp [hx]), if_neg hn]
        have hstat := needs_sync_false_elim (by simpa using hn)
        have hlk : lookupFile back p = some m := by
          unfold statMeta at hstat
          cases hl : lookupFile back p with
          | some m' =>
            rw [hl] at hstat
            exact hstat
          | none =>
            rw [hl] at hstat
            have hstat' : lookupDir back p = some m := hstat
            have : dirExists back p = true := by
              unfold dirExists
              rw [hstat']
              rfl
            rw [hgd] at this
            cases this
        rw [forwardPass_frame_key prim hnd hwf rest back p hsubrest (goodBack_tail hg)
          hnerest]
        exact hlk
    · by_cases hxq : should_exclude (joinPath BOOT_USB q) = true
      · rw [forwardPass, if_pos hxq]
        exact ih back hsubrest (goodBack_tail hg) p m htail hx
      · by_cases hn : needs_sync mq back q = true
        · rw [forwardPass_step_sync prim q mq rest back hxq hn]
          have hmem_q : (q, mq) ∈ prim.files := hsub.subset (List.mem_cons_self _ _)
          have hmq : lookupFile prim q = some mq := lookupFile_of_mem_nodup prim hnd hmem_q
          obtain ⟨hgd, hgf⟩ := hg q mq (List.mem_cons_self _ _) (by simpa using hxq)
          rw [sync_file_clean prim back q mq (by simpa using hxq) hmq hgd hgf]
          have hg' : goodBack rest (insertFile (mkdirs back q.dropLast) q mq) :=
            goodBack_insert rest back q mq (head_sep prim hnd hwf hsub) (goodBack_tail hg)
          show lookupFile (forwardPass false prim rest
            (insertFile (mkdirs back q.dropLast) q mq)).1 p = _
          exact ih _ hsubrest hg' p m htail hx
        · rw [forwardPass, if_neg hxq, if_neg hn]
          exact ih back hsubrest (goodBack_tail hg) p m htail hx

/-- When nothing needs syncing, the forward pass is the identity and
counts zero changes. -/
theorem forwardPass_noop (prim : FS) :
    ∀ (l : List (List String × FileMeta)) (back : FS),
      (∀ p m, (p, m) ∈ l → should_exclude (joinPath BOOT_USB p) = false →
        needs_sync m back p = false) →
      forwardPass false prim l back = (back, 0) := by
  intro l
  induction l with
  | nil => intro back _; rfl
  | cons qm rest ih =>
    intro back h
    obtain ⟨q, mq⟩ := qm
    by_cases hx : should_exclude (joinPath BOOT_USB q) = true
    · rw [forwardPass, if_pos hx]
      exact ih back (fun p m hm hx2 => h p m (List.mem_cons_of_mem _ hm) hx2)
    · have hn := h q mq (List.mem_cons_self _ _) (by simpa using hx)
      rw [forwardPass, if_neg hx, if_neg (by simp [hn])]
      exact ih back (fun p m hm hx2 => h p m (List.mem_cons_of_mem _ hm) hx2)

theorem lookupFile_filter_keep (l : List (List String × FileMeta))
    (keep : List String → Bool) (p : List String) (hp : keep p = true) :
    (l.filter (fun f => keep f.1)).find? (fun f => (f.1 = p : Bool)) =
      l.find? (fun f => (f.1 = p : Bool)) := by
  induction l with
  | nil => rfl
  | cons a l ih =>
    by_cases hk : keep a.1 = true
    · rw [List.filter_cons_of_pos (by exact hk)]
      by_cases ha : a.1 = p
      · rw [List.find?_cons_of_pos _ (by simp [ha]), List.find?_cons_of_pos _ (by simp [ha])]
      · rw [List.find?_cons_of_neg _ (by simp [ha]), List.find?_cons_of_neg _ (by simp [ha]),
          ih]
    · have ha : ¬(a.1 = p) := fun hc => hk (by rw [hc]; exact hp)
      rw [List.filter_cons_of_neg (by simpa using hk),
        List.find?_cons_of_neg _ (by simp [ha]), ih]

theorem lookupFile_orphan (prim back : FS) (p : List String)
    (hp : pathExists prim p = true) :
    lookupFile (orphanPass prim back).1 p = lookupFile back p := by
  unfold orphanPass lookupFile
  exact congrArg _ (lookupFile_filter_keep back.files (fun s => pathExists prim s) p hp)

theorem orphanPass_count_zero (prim back : FS)
    (h : ∀ f ∈ back.files, pathExists prim f.1 = true) :
    (orphanPass prim back).2 = 0 := by
  unfold orphanPass
  rw [List.length_eq_zero, List.filter_eq_nil]
  intro f hf
  simp [h f hf]

theorem orphanPass_mem (prim back : FS) :
    ∀ f ∈ (orphanPass prim back).1.files, pathExists prim f.1 = true := by
  intro f hf
  exact (List.mem_filter.mp hf).2

theorem initial_sync_eq (prim back : FS) :
    initial_sync prim back false =
      ((orphanPass prim (forwardPass false prim prim.files back).1).1,
       (forwardPass false prim prim.files back).2 +
         (orphanPass prim (forwardPass false prim prim.files back).1).2) := by
  unfold initial_sync
  rw [if_neg (by simp)]

/-- C4 counterexample: a backup directory sitting at a primary file
path defeats idempotence.  Primary holds the file `a`; backup holds a
directory `a` with different stats.  Each run re-syncs (copy2 copies
into the directory, creating `a/a`), then the orphan pass deletes
`a/a`, so the second run still reports 2 changes, not 0. -/
theorem C4_counterexample :
    (initial_sync ⟨[(["a"], ⟨1, 2⟩)], []⟩
      (initial_sync ⟨[(["a"], ⟨1, 2⟩)], []⟩ ⟨[], [(["a"], ⟨0, 0⟩)]⟩ false).1 false).2 ≠ 0 := by
  decide

/-- C4 (amended): for a well-formed primary file set (distinct paths,
none a prefix of another) and a backup tree in which no directory
occupies a non-excluded primary file path and no file occupies a proper
ancestor of one, running `initial_sync` twice (not in dry-run) with no
intervening changes produces zero changes on the second run: the copy
preserves mtime and size, so the second forward pass finds no mismatch,
and the second orphan pass finds no orphans. -/
theorem C4_reconciler_idempotent (prim back : FS)
    (hnd : (prim.files.map Prod.fst).Nodup)
    (hwf : ∀ p mp q mq, (p, mp) ∈ prim.files → (q, mq) ∈ prim.files → p ≠ q →
      ¬(p <+: q))
    (hgood : goodBack prim.files back) :
    (initial_sync prim (initial_sync prim back false).1 false).2 = 0 := by
  set X := (initial_sync prim back false).1 with hX
  have hrun1 : X = (orphanPass prim (forwardPass false prim prim.files back).1).1 := by
    rw [hX, initial_sync_eq]
  have hkey : ∀ p m, (p, m) ∈ prim.files →
      should_exclude (joinPath BOOT_USB p) = false →
      lookupFile (forwardPass false prim prim.files back).1 p = some m :=
    fun p m hm hx => forwardPass_sets_key prim hnd hwf prim.files back
      (List.Sublist.refl _) hgood p m hm hx
  have hkey1 : ∀ p m, (p, m) ∈ prim.files →
      should_exclude (joinPath BOOT_USB p) = false → lookupFile X p = some m := by
    intro p m hm hx
    have hpe : pathExists prim p = true := by
      unfold pathExists fileExists
      rw [lookupFile_of_mem_nodup prim hnd hm]
      rfl
    rw [hrun1, lookupFile_orphan prim _ p hpe]
    exact hkey p m hm hx
  have hno : forwardPass false prim prim.files X = (X, 0) := by
    apply forwardPass_noop
    intro p m hm hx
    exact needs_sync_false_of_lookup (hkey1 p m hm hx)
  have horph : (orphanPass prim X).2 = 0 := by
    apply orphanPass_count_zero
    intro f hf
    rw [hrun1] at hf
    exact orphanPass_mem prim _ f hf
  rw [initial_sync_eq, hno]
  simpa using horph

/-- Witness for C4 (amended): one primary file, empty backup; the second
run makes zero changes. -/
theorem C4_reconciler_idempotent_witness :
    (initial_sync ⟨[(["a"], ⟨1, 2⟩)], []⟩
      (initial_sync ⟨[(["a"], ⟨1, 2⟩)], []⟩ ⟨[], []⟩ false).1 false).2 = 0 := by
  apply C4_reconciler_idempotent
  · decide
  · intro p mp q mq hp hq hne
    have h1 := List.mem_singleton.mp hp
    have h2 := List.mem_singleton.mp hq
    injection h1 with h1a h1b
    injection h2 with h2a h2b
    exact absurd (h1a.trans h2a.symm) hne
  · intro q mq _ _
    exact ⟨rfl, fun r _ _ _ => rfl⟩

end UsbMirror
